import Mathlib

/-!
Shallow embedding of the per-connection command-batching engine
(`src/lib/interpreter.cpp` and `src/lib/async.cpp`).

Statements are opaque units with a textual value; a statement is modelled by
its text (a list of characters) and a block (`StatementContainer`) by the
ordered list of its statements.  The parsing boundary (`Reader`), the logging
sink (`Logger`) and the statement type live in headers that are not part of
the repository snapshot; they are modelled from the specification where
needed, and each such definition is marked in its doc comment.
-/

namespace Async

/-- A statement, identified by its textual value (one line of input). -/
abbrev Stmt := List Char

/-- A block (`StatementContainer`): an ordered sequence of statements. -/
abbrev Block := List Stmt

/-- Per-thread worker metrics (`Worker::Metrics` in interpreter.cpp):
blocks processed and statements processed by one thread. -/
structure Metrics where
  nblocks : Nat
  nstatements : Nat
deriving Repr, DecidableEq

/-- The state of one worker thread: whether it has exited its loop, its
own metrics slot, and (for specification purposes) the list of blocks on
which it has invoked the job so far, in invocation order. -/
structure ThreadState where
  exited : Bool
  metrics : Metrics
  processed : List Block
deriving Repr, DecidableEq

/-- The state of a `Worker` (interpreter.cpp, unnamed namespace): the shared
queue `bulks`, the `stopped` flag, and the per-thread states. -/
structure WorkerState where
  bulks : List Block
  stopped : Bool
  threads : List ThreadState
deriving Repr, DecidableEq

/-- A freshly constructed worker pool with `nthreads` threads:
empty queue, not stopped, each thread live with zero metrics. -/
def Worker.init (nthreads : Nat) : WorkerState :=
  ⟨[], false, List.replicate nthreads ⟨false, ⟨0, 0⟩, []⟩⟩

/-- `Worker::send`: push the block at the back of the shared queue. -/
def WorkerState.send (st : WorkerState) (b : Block) : WorkerState :=
  { st with bulks := st.bulks ++ [b] }

/-- `Worker::stop`: set the `stopped` flag (and wake all threads). -/
def WorkerState.stop (st : WorkerState) : WorkerState :=
  { st with stopped := true }

/-- One thread's processing of a locally swapped-out batch list
(the body of the `for` loop in `Worker::operator()`): the job is invoked on
each block in order and the thread's own metrics are updated; `ex` records
whether `stopped` was observed at wake time, in which case the loop exits. -/
def ThreadState.run (t : ThreadState) (taken : List Block) (ex : Bool) : ThreadState :=
  { exited := ex
  , metrics := ⟨t.metrics.nblocks + taken.length,
                t.metrics.nstatements + (taken.map List.length).sum⟩
  , processed := t.processed ++ taken }

/-- One iteration of thread `i`'s loop in `Worker::operator()`: the thread
wakes when `stopped ∨ bulks ≠ []`, records `exit = stopped`, atomically swaps
the entire queue into a local list, releases the lock, processes the local
list, and exits the loop iff `exit` was set.  If the thread has already
exited or its wait condition does not hold, nothing happens. -/
def WorkerState.wake (st : WorkerState) (i : Nat) : WorkerState :=
  match st.threads[i]? with
  | none => st
  | some t =>
    if t.exited then st
    else if st.stopped = true ∨ st.bulks ≠ [] then
      { st with bulks := []
              , threads := st.threads.set i (t.run st.bulks st.stopped) }
    else st

/-- `Worker::join` after `stop`: every thread is woken once; as `stopped`
holds, each wakes, drains whatever is queued, and exits. -/
def WorkerState.joinAll (st : WorkerState) : WorkerState :=
  (List.range st.threads.length).foldl WorkerState.wake st

/-- An event in a concurrent history of one worker pool: a producer `send`,
the `stop` call, or a wake-up of thread `i`. -/
inductive Event where
  | send (b : Block)
  | stop
  | wake (i : Nat)
deriving Repr, DecidableEq

/-- Interpretation of one event on the worker state. -/
def WorkerState.step (st : WorkerState) (e : Event) : WorkerState :=
  match e with
  | .send b => st.send b
  | .stop => st.stop
  | .wake i => st.wake i

/-- Execution of a history against a fresh pool of `n` threads. -/
def Worker.exec (n : Nat) (tr : List Event) : WorkerState :=
  tr.foldl WorkerState.step (Worker.init n)

/-- The blocks submitted in a history, in submission order. -/
def sentOf (tr : List Event) : List Block :=
  tr.filterMap (fun e => match e with | .send b => some b | _ => none)

/-- All blocks on which the job has been invoked, across all threads
(each thread's list in its own invocation order). -/
def processedAll (st : WorkerState) : List Block :=
  (st.threads.map ThreadState.processed).flatten

/-- The multiset of blocks on which the job has been invoked, across all
threads. -/
def processedMS (st : WorkerState) : Multiset Block :=
  (st.threads.map (fun t => (t.processed : Multiset Block))).sum

/-- Modelled from the spec: the parsing boundary (`Reader`, declared in
`reader.h`, which is not part of the snapshot).  It accepts one line of text
at a time, turns it into one statement, groups statements into fixed-size
blocks of `blockSize`, and keeps aggregate counts of lines, statements and
blocks.  `linesFed` records, for specification purposes, the lines handed to
the boundary in arrival order. -/
structure ReaderState where
  blockSize : Nat
  current : List Stmt
  linesFed : List Stmt
  nlines : Nat
  nstatements : Nat
  nblocks : Nat
deriving Repr, DecidableEq

/-- Modelled from the spec: a fresh parsing boundary for a given block size. -/
def Reader.init (blockSize : Nat) : ReaderState :=
  ⟨blockSize, [], [], 0, 0, 0⟩

/-- Modelled from the spec: `Reader::consume` applied to one line — the line
becomes one statement appended to the in-progress block; when the block
reaches `blockSize` statements it is completed and returned for broadcast to
the subscribers. -/
def ReaderState.consumeLine (r : ReaderState) (line : Stmt) : ReaderState × List Block :=
  let cur := r.current ++ [line]
  let r' : ReaderState :=
    { r with current := cur
           , linesFed := r.linesFed ++ [line]
           , nlines := r.nlines + 1
           , nstatements := r.nstatements + 1 }
  if cur.length = r.blockSize then
    ({ r' with current := [], nblocks := r.nblocks + 1 }, [cur])
  else
    (r', [])

/-- Modelled from the spec: `Reader::on_eof` — any partially formed block is
flushed as a final (possibly short) block; an empty partial block emits
nothing. -/
def ReaderState.onEof (r : ReaderState) : ReaderState × List Block :=
  if r.current = [] then (r, [])
  else ({ r with current := [], nblocks := r.nblocks + 1 }, [r.current])

/-- The state of one connection's `Interpreter::Impl`: the parsing boundary,
the single-thread logging pool, the file-writing pool, the `stopped` flag and
the fixed-capacity line buffer (`std::array<char, 1024>` plus `buffer_size`,
modelled by the list of the `buffer_size` characters written so far). -/
structure InterpState where
  reader : ReaderState
  logWorker : WorkerState
  fileWorker : WorkerState
  stopped : Bool
  buffer : List Char
deriving Repr, DecidableEq

/-- Capacity of the line buffer: `std::array<char, 1024>`. -/
def bufferCapacity : Nat := 1024

/-- `Interpreter::Impl::Impl`: a fresh connection with a reader of the given
block size, a one-thread logging pool and an `nthreads`-thread file pool,
both subscribed to the reader. -/
def Interp.init (blockSize nthreads : Nat) : InterpState :=
  ⟨Reader.init blockSize, Worker.init 1, Worker.init nthreads, false, []⟩

/-- Broadcast of completed blocks to the subscribers, in registration order
(`reader.subscribe(log_worker); reader.subscribe(file_worker)`): each block
is sent to the logging pool and to the file pool. -/
def InterpState.notify (st : InterpState) (blocks : List Block) : InterpState :=
  { st with logWorker := blocks.foldl WorkerState.send st.logWorker
          , fileWorker := blocks.foldl WorkerState.send st.fileWorker }

/-- `Interpreter::Impl::consume_available`: hand the buffered characters to
the reader as one line, reset the buffer, and broadcast any completed block. -/
def InterpState.consumeAvailable (st : InterpState) : InterpState :=
  let rb := st.reader.consumeLine st.buffer
  InterpState.notify { st with reader := rb.1, buffer := [] } rb.2

/-- One character of `Interpreter::Impl::consume`: a newline flushes the
buffer through `consume_available`; any other character is written at index
`buffer_size` via `buffer.at(...)`, which is an out-of-range fault (`none`)
when the buffer is full. -/
def InterpState.consumeChar (st : InterpState) (c : Char) : Option InterpState :=
  if c = '\n' then some st.consumeAvailable
  else if st.buffer.length < bufferCapacity then
    some { st with buffer := st.buffer ++ [c] }
  else none

/-- `Interpreter::Impl::consume`: the loop over the incoming characters. -/
def InterpState.consumeImpl : InterpState → List Char → Option InterpState
  | st, [] => some st
  | st, c :: cs =>
    match st.consumeChar c with
    | none => none
    | some st' => st'.consumeImpl cs

/-- `Interpreter::consume`: a silent no-op once the connection is stopped,
otherwise `Impl::consume` under the connection lock. -/
def InterpState.consume (st : InterpState) (data : List Char) : Option InterpState :=
  if st.stopped then some st else st.consumeImpl data

/-- Feeding a sequence of chunks through repeated `Interpreter::consume`
calls. -/
def InterpState.consumeChunks : InterpState → List (List Char) → Option InterpState
  | st, [] => some st
  | st, c :: cs =>
    match st.consume c with
    | none => none
    | some st' => st'.consumeChunks cs

/-- `Interpreter::Impl::on_eof`: a non-empty partial line is fed through the
line-handling path, the reader is told end-of-stream (flushing a final
block), then both pools are stopped and then joined. -/
def InterpState.onEof (st : InterpState) : InterpState :=
  let st1 := if st.buffer = [] then st else st.consumeAvailable
  let rb := st1.reader.onEof
  let st2 := InterpState.notify { st1 with reader := rb.1 } rb.2
  let st3 := { st2 with logWorker := st2.logWorker.stop
                      , fileWorker := st2.fileWorker.stop }
  { st3 with logWorker := st3.logWorker.joinAll
           , fileWorker := st3.fileWorker.joinAll }

/-- The metrics report composed by `Interpreter::stop_and_log_metrics`:
the reader's aggregate counts, the logging pool's (single) thread metrics
(`thread_metrics[0]`), and every file-pool thread's metrics. -/
structure Report where
  readerLines : Nat
  readerStatements : Nat
  readerBlocks : Nat
  logMetrics : Metrics
  fileMetrics : List Metrics
deriving Repr, DecidableEq

/-- Composition of the report from a (quiescent) connection state. -/
def InterpState.mkReport (st : InterpState) : Report :=
  ⟨st.reader.nlines, st.reader.nstatements, st.reader.nblocks,
   (st.logWorker.threads.map ThreadState.metrics).headD ⟨0, 0⟩,
   st.fileWorker.threads.map ThreadState.metrics⟩

/-- `Interpreter::stop_and_log_metrics`: a no-op when already stopped (no
report); otherwise the stopped flag is set, `on_eof` drains and joins
everything, and one report is composed from the resulting state and handed
to the logging sink. -/
def InterpState.stopAndLogMetrics (st : InterpState) : InterpState × Option Report :=
  if st.stopped then (st, none)
  else
    let st1 := { st with stopped := true }
    let st2 := st1.onEof
    (st2, some st2.mkReport)

/-- `nthreads_per_connection` in async.cpp. -/
def nthreadsPerConnection : Nat := 2

/-- The state of the connection registry (`ConnectionsHandler` in async.cpp):
the next handle to allocate, the handle-to-connection table, and the list of
reports handed to the logging sink so far (the sink itself, `Logger`, is
modelled from the spec as an accumulating record of atomic writes). -/
structure Registry where
  nextId : Nat
  connections : List (Nat × InterpState)
  reports : List Report
deriving Repr, DecidableEq

/-- The initial registry `g_conn_handler`. -/
def Registry.init : Registry := ⟨0, [], []⟩

/-- Lookup of a handle in the connection table. -/
def Registry.lookup (reg : Registry) (h : Nat) : Option InterpState :=
  (reg.connections.find? (fun p => p.1 = h)).map Prod.snd

/-- `async::connect`: allocate the next id, construct a connection with the
given bulk size and `nthreads_per_connection` file threads, insert it, and
return the handle. -/
def Registry.connect (reg : Registry) (bulk : Nat) : Nat × Registry :=
  (reg.nextId,
   { reg with nextId := reg.nextId + 1
            , connections :=
                reg.connections ++ [(reg.nextId, Interp.init bulk nthreadsPerConnection)] })

/-- `async::receive`: look the connection up under the lock, then run its
`consume` outside the lock; an unknown handle is silently ignored.  `none`
is the out-of-range fault escaping from `consume`. -/
def Registry.receive (reg : Registry) (h : Nat) (data : List Char) : Option Registry :=
  match reg.lookup h with
  | none => some reg
  | some i =>
    match i.consume data with
    | none => none
    | some i' =>
      some { reg with connections :=
               reg.connections.map (fun p => if p.1 = h then (p.1, i') else p) }

/-- `async::disconnect`: atomically remove the connection from the table,
then call `stop_and_log_metrics` on it outside the lock; its report, if any,
goes to the logging sink.  An unknown handle is silently ignored. -/
def Registry.disconnect (reg : Registry) (h : Nat) : Registry :=
  match reg.lookup h with
  | none => reg
  | some i =>
    let reg' := { reg with connections := reg.connections.filter (fun p => p.1 ≠ h) }
    match (i.stopAndLogMetrics).2 with
    | none => reg'
    | some r => { reg' with reports := reg'.reports ++ [r] }

/-- A client operation against the registry, for histories of
connect/disconnect calls. -/
inductive RegOp where
  | connect (bulk : Nat)
  | disconnect (h : Nat)
deriving Repr, DecidableEq

/-- Execution of a history of registry operations, returning the final
registry and the handles returned by the `connect` calls, in call order. -/
def Registry.runOps : Registry → List RegOp → Registry × List Nat
  | reg, [] => (reg, [])
  | reg, RegOp.connect bulk :: rest =>
    let hr := reg.connect bulk
    let fin := Registry.runOps hr.2 rest
    (fin.1, hr.1 :: fin.2)
  | reg, RegOp.disconnect h :: rest => Registry.runOps (reg.disconnect h) rest

/-- The newline-separated segments of a byte sequence, in order, including
the trailing (possibly empty) partial line: the lines the `consume` loop
accumulates in the line buffer. -/
def segsOf : List Char → List (List Char)
  | [] => [[]]
  | c :: cs =>
    if c = '\n' then [] :: segsOf cs
    else
      match segsOf cs with
      | [] => [[c]]
      | s :: rest => (c :: s) :: rest

/-- Whether the `consume` loop, entered with `k` characters already
buffered, writes the given characters without exhausting the line buffer. -/
def fitsFrom : Nat → List Char → Bool
  | _, [] => true
  | k, c :: cs =>
    if c = '\n' then fitsFrom 0 cs
    else decide (k < bufferCapacity) && fitsFrom (k + 1) cs

/-! Helper lemmas about `consume`. -/

theorem consumeAvailable_stopped (st : InterpState) :
    st.consumeAvailable.stopped = st.stopped := rfl

theorem consumeChar_stopped {st st' : InterpState} {c : Char}
    (h : st.consumeChar c = some st') : st'.stopped = st.stopped := by
  unfold InterpState.consumeChar at h
  split at h
  · injection h with h
    exact h ▸ consumeAvailable_stopped st
  · split at h
    · injection h with h
      subst h
      rfl
    · cases h

theorem consumeImpl_stopped : ∀ (data : List Char) (st st' : InterpState),
    st.consumeImpl data = some st' → st'.stopped = st.stopped
  | [], _, _, h => by
    injection h with h
    subst h
    rfl
  | c :: cs, st, st', h => by
    unfold InterpState.consumeImpl at h
    cases hc : st.consumeChar c with
    | none => rw [hc] at h; cases h
    | some s1 =>
      rw [hc] at h
      rw [consumeImpl_stopped cs s1 st' h, consumeChar_stopped hc]

theorem consumeImpl_append : ∀ (a b : List Char) (st : InterpState),
    st.consumeImpl (a ++ b) = (st.consumeImpl a).bind (fun s => s.consumeImpl b)
  | [], _, _ => rfl
  | c :: cs, b, st => by
    show (match st.consumeChar c with
          | none => none
          | some s => s.consumeImpl (cs ++ b)) =
         (match st.consumeChar c with
          | none => none
          | some s => s.consumeImpl cs).bind (fun s => s.consumeImpl b)
    cases st.consumeChar c with
    | none => rfl
    | some s => exact consumeImpl_append cs b s

/-- C1: chunking invariance — feeding any byte sequence split at arbitrary
boundaries across repeated `consume` calls yields exactly the same connection
state (hence the same lines handed to the parsing boundary and the same
Blocks broadcast) as feeding the whole sequence in one call; in particular
both fault together when a line exceeds the buffer capacity, and a stopped
connection ignores both. -/
theorem chunking_invariance (st : InterpState) (chunks : List (List Char)) :
    st.consumeChunks chunks = st.consume chunks.flatten := by
  induction chunks generalizing st with
  | nil =>
    cases hst : st.stopped <;>
      simp [InterpState.consumeChunks, InterpState.consume, InterpState.consumeImpl, hst]
  | cons c cs ih =>
    show (match st.consume c with
          | none => none
          | some s => s.consumeChunks cs) = st.consume (c ++ cs.flatten)
    cases hst : st.stopped with
    | true =>
      simp only [InterpState.consume, hst, if_pos]
      rw [ih st]
      simp [InterpState.consume, hst]
    | false =>
      simp only [InterpState.consume, hst, if_neg, Bool.false_eq_true, not_false_iff]
      rw [consumeImpl_append]
      cases hc : st.consumeImpl c with
      | none => rfl
      | some s =>
        have hs : s.stopped = false := (consumeImpl_stopped c st s hc).trans hst
        show s.consumeChunks cs = s.consumeImpl cs.flatten
        rw [ih s]
        simp [InterpState.consume, hs]

/-! Helper lemmas about worker histories. -/

theorem sentOf_cons_send (b : Block) (tr : List Event) :
    sentOf (Event.send b :: tr) = b :: sentOf tr := by
  simp [sentOf]

theorem sentOf_cons_stop (tr : List Event) :
    sentOf (Event.stop :: tr) = sentOf tr := by
  simp [sentOf]

theorem sentOf_cons_wake (i : Nat) (tr : List Event) :
    sentOf (Event.wake i :: tr) = sentOf tr := by
  simp [sentOf]

theorem step_threads_length (st : WorkerState) (e : Event) :
    (st.step e).threads.length = st.threads.length := by
  cases e with
  | send b => rfl
  | stop => rfl
  | wake i =>
    show (st.wake i).threads.length = _
    unfold WorkerState.wake
    split
    · rfl
    · split
      · rfl
      · split
        · simp
        · rfl

theorem step_inv_single (st : WorkerState) (e : Event) (h1 : st.threads.length = 1) :
    processedAll (st.step e) ++ (st.step e).bulks
      = (processedAll st ++ st.bulks) ++ sentOf [e] := by
  cases e with
  | send b =>
    simp [WorkerState.step, WorkerState.send, processedAll, sentOf]
  | stop =>
    simp [WorkerState.step, WorkerState.stop, processedAll, sentOf]
  | wake i =>
    obtain ⟨t0, ht⟩ := List.length_eq_one.mp h1
    show processedAll (st.wake i) ++ (st.wake i).bulks = _
    unfold WorkerState.wake
    split
    · simp [sentOf]
    · rename_i t hsome
      split
      · simp [sentOf]
      · split
        · rw [ht] at hsome ⊢
          cases i with
          | zero =>
            injection hsome with hsome
            subst hsome
            simp [processedAll, ThreadState.run, sentOf, ht]
          | succ j => cases hsome
        · simp [sentOf]

theorem exec_inv_single : ∀ (tr : List Event) (st : WorkerState),
    st.threads.length = 1 →
    processedAll (tr.foldl WorkerState.step st) ++ (tr.foldl WorkerState.step st).bulks
      = (processedAll st ++ st.bulks) ++ sentOf tr
  | [], st, _ => by simp [sentOf]
  | e :: rest, st, h => by
    rw [List.foldl_cons,
        exec_inv_single rest (st.step e) (by rw [step_threads_length]; exact h),
        step_inv_single st e h]
    cases e <;> simp [sentOf]

/-- C2: single-thread ordering law — for every history of submissions, stop
and wake-ups of a one-thread pool, the blocks on which the job has been
invoked, followed by the blocks still queued, are exactly the submitted
blocks in submission order; hence the job observes blocks in exactly the
order they were submitted. -/
theorem single_thread_ordering (tr : List Event) :
    processedAll (Worker.exec 1 tr) ++ (Worker.exec 1 tr).bulks = sentOf tr := by
  have h := exec_inv_single tr (Worker.init 1) rfl
  simpa [Worker.exec, Worker.init, processedAll] using h

/-- C3: once `stop()` has been called, a live thread's next wake swaps out
everything in the shared queue, processes it against the job (updating that
thread's metrics), and exits. -/
theorem stop_drains (n : Nat) (tr : List Event) (i : Nat) (t : ThreadState)
    (hsome : (Worker.exec n (tr ++ [Event.stop])).threads[i]? = some t)
    (hex : t.exited = false) :
    (Worker.exec n (tr ++ [Event.stop, Event.wake i])).bulks = [] ∧
    (Worker.exec n (tr ++ [Event.stop, Event.wake i])).threads[i]? =
      some { exited := true
           , metrics :=
               ⟨t.metrics.nblocks + (Worker.exec n (tr ++ [Event.stop])).bulks.length,
                t.metrics.nstatements
                  + ((Worker.exec n (tr ++ [Event.stop])).bulks.map List.length).sum⟩
           , processed := t.processed ++ (Worker.exec n (tr ++ [Event.stop])).bulks } := by
  have happ : tr ++ [Event.stop, Event.wake i]
      = (tr ++ [Event.stop]) ++ [Event.wake i] := by simp
  have hstep : Worker.exec n (tr ++ [Event.stop, Event.wake i])
      = (Worker.exec n (tr ++ [Event.stop])).wake i := by
    rw [happ]
    unfold Worker.exec
    rw [List.foldl_append]
    rfl
  have hstop : (Worker.exec n (tr ++ [Event.stop])).stopped = true := by
    unfold Worker.exec
    rw [List.foldl_append]
    rfl
  have hlt : i < (Worker.exec n (tr ++ [Event.stop])).threads.length := by
    rcases List.getElem?_eq_some.mp hsome with ⟨h, _⟩
    exact h
  rw [hstep]
  unfold WorkerState.wake
  rw [hsome]
  simp only [hex, hstop, Bool.false_eq_true, if_false, true_or, if_true]
  refine ⟨trivial, ?_⟩
  simp [List.getElem?_set_eq_of_lt _ hlt, ThreadState.run, hstop]

/-- Witness for C3 at a concrete one-thread history with one submission. -/
theorem stop_drains_witness :
    (Worker.exec 1 ([Event.send [['x']]] ++ [Event.stop, Event.wake 0])).bulks = [] :=
  (stop_drains 1 [Event.send [['x']]] 0 ⟨false, ⟨0, 0⟩, []⟩ (by decide) rfl).1

theorem sum_processed_set :
    ∀ (l : List ThreadState) (i : Nat) (t t' : ThreadState) (extra : Multiset Block),
    l[i]? = some t →
    (t'.processed : Multiset Block) = (t.processed : Multiset Block) + extra →
    ((l.set i t').map (fun u => (u.processed : Multiset Block))).sum
      = (l.map (fun u => (u.processed : Multiset Block))).sum + extra
  | [], i, _, _, _, h, _ => by cases h
  | a :: as, 0, t, t', extra, h, he => by
    rw [List.getElem?_cons_zero] at h
    injection h with h
    subst h
    simp only [List.set, List.map_cons, List.sum_cons, he]
    abel
  | a :: as, i + 1, t, t', extra, h, he => by
    simp only [List.set, List.map_cons, List.sum_cons]
    rw [sum_processed_set as i t t' extra (by simpa using h) he]
    abel

theorem step_inv_ms (st : WorkerState) (e : Event) :
    processedMS (st.step e) + ((st.step e).bulks : Multiset Block)
      = (processedMS st + (st.bulks : Multiset Block)) + (sentOf [e] : Multiset Block) := by
  cases e with
  | send b =>
    show processedMS st + ((st.bulks ++ [b] : List Block) : Multiset Block) = _
    rw [← Multiset.coe_add]
    simp [sentOf]
    abel
  | stop =>
    simp [WorkerState.step, WorkerState.stop, processedMS, sentOf]
  | wake i =>
    show processedMS (st.wake i) + ((st.wake i).bulks : Multiset Block) = _
    unfold WorkerState.wake
    split
    · simp [sentOf]
    · rename_i t hsome
      split
      · simp [sentOf]
      · split
        · show (((st.threads.set i (t.run st.bulks st.stopped)).map
              (fun u => (u.processed : Multiset Block))).sum) + (([] : List Block) : Multiset Block) = _
          rw [sum_processed_set st.threads i t (t.run st.bulks st.stopped)
                (st.bulks : Multiset Block) hsome (by simp [ThreadState.run])]
          simp [processedMS, sentOf]
        · simp [sentOf]

theorem exec_inv_ms : ∀ (tr : List Event) (st : WorkerState),
    processedMS (tr.foldl WorkerState.step st) + ((tr.foldl WorkerState.step st).bulks : Multiset Block)
      = (processedMS st + (st.bulks : Multiset Block)) + (sentOf tr : Multiset Block)
  | [], st => by simp [sentOf]
  | e :: rest, st => by
    rw [List.foldl_cons, exec_inv_ms rest (st.step e), step_inv_ms st e]
    cases e with
    | send b =>
      rw [sentOf_cons_send]
      simp [sentOf, ← Multiset.cons_coe]
      rw [← Multiset.singleton_add]
      abel
    | stop => simp [sentOf]
    | wake i => simp [sentOf]

/-- C9: completeness law — for every history against an `n`-thread pool in
which the shared queue has been fully drained, the multiset of blocks on
which the job was invoked, across all threads, equals the multiset of blocks
submitted: no block is lost or duplicated, whatever the interleaving. -/
theorem completeness_law (n : Nat) (tr : List Event)
    (hq : (Worker.exec n tr).bulks = []) :
    processedMS (Worker.exec n tr) = (sentOf tr : Multiset Block) := by
  have h := exec_inv_ms tr (Worker.init n)
  rw [show tr.foldl WorkerState.step (Worker.init n) = Worker.exec n tr from rfl, hq] at h
  simpa [processedMS, Worker.init] using h

/-- Witness for C9: a two-thread pool with two submissions, stop, and a wake
of each thread. -/
theorem completeness_law_witness :
    processedMS (Worker.exec 2
        [Event.send [['a']], Event.send [['b'], ['c']], Event.stop,
         Event.wake 0, Event.wake 1])
      = (sentOf [Event.send [['a']], Event.send [['b'], ['c']], Event.stop,
         Event.wake 0, Event.wake 1] : Multiset Block) :=
  completeness_law 2 _ (by decide)

/-! Registry lemmas. -/

theorem disconnect_nextId (reg : Registry) (h : Nat) :
    (reg.disconnect h).nextId = reg.nextId := by
  unfold Registry.disconnect
  split
  · rfl
  · split <;> rfl

theorem disconnect_connections (reg : Registry) (h : Nat) (i : InterpState)
    (hl : reg.lookup h = some i) :
    (reg.disconnect h).connections = reg.connections.filter (fun p => p.1 ≠ h) := by
  unfold Registry.disconnect
  rw [hl]
  split
  · rename_i heq
    exact absurd heq (by simp)
  · rename_i st2 heq
    injection heq with heq
    subst heq
    split <;> rfl

theorem lookup_disconnect (reg : Registry) (h : Nat) :
    (reg.disconnect h).lookup h = none := by
  cases hl : reg.lookup h with
  | none =>
    have hid : reg.disconnect h = reg := by
      unfold Registry.disconnect
      rw [hl]
    rw [hid, hl]
  | some i =>
    have hc := disconnect_connections reg h i hl
    show (((reg.disconnect h).connections.find? (fun p => p.1 = h)).map Prod.snd) = none
    rw [hc]
    have hnone : (reg.connections.filter (fun p => p.1 ≠ h)).find?
        (fun p => p.1 = h) = none := by
      rw [List.find?_eq_none]
      intro x hx
      have hmem := List.of_mem_filter hx
      simp only [decide_eq_true_eq] at hmem ⊢
      exact hmem
    rw [hnone]
    rfl

theorem runOps_handles : ∀ (ops : List RegOp) (reg : Registry),
    List.Pairwise (· < ·) (Registry.runOps reg ops).2 ∧
      ∀ x ∈ (Registry.runOps reg ops).2, reg.nextId ≤ x
  | [], reg => by simp [Registry.runOps]
  | RegOp.connect bulk :: rest, reg => by
    have ih := runOps_handles rest (reg.connect bulk).2
    show List.Pairwise (· < ·) (reg.nextId :: (Registry.runOps (reg.connect bulk).2 rest).2) ∧
      ∀ x ∈ reg.nextId :: (Registry.runOps (reg.connect bulk).2 rest).2, reg.nextId ≤ x
    have hnext : (reg.connect bulk).2.nextId = reg.nextId + 1 := rfl
    constructor
    · refine List.Pairwise.cons ?_ ih.1
      intro y hy
      have := ih.2 y hy
      rw [hnext] at this
      omega
    · intro x hx
      rcases List.mem_cons.mp hx with hx | hx
      · omega
      · have := ih.2 x hx
        rw [hnext] at this
        omega
  | RegOp.disconnect h :: rest, reg => by
    have ih := runOps_handles rest (reg.disconnect h)
    show List.Pairwise (· < ·) (Registry.runOps (reg.disconnect h) rest).2 ∧ _
    refine ⟨ih.1, ?_⟩
    intro x hx
    have := ih.2 x hx
    rw [disconnect_nextId] at this
    exact this

/-- C5: handle uniqueness and monotonicity — over any sequence of connect
and disconnect calls on a fresh registry, the handles returned by the
connect calls are strictly increasing in call order, and in particular no
handle is ever returned twice, even after a disconnect. -/
theorem handle_monotone (ops : List RegOp) :
    List.Pairwise (· < ·) (Registry.runOps Registry.init ops).2 ∧
      (Registry.runOps Registry.init ops).2.Nodup :=
  ⟨(runOps_handles ops Registry.init).1,
   List.Pairwise.imp (fun h => Nat.ne_of_lt h) (runOps_handles ops Registry.init).1⟩

/-- C6: benign misuse — `receive` and `disconnect` on a handle unknown to
the registry are silent no-ops that raise no error and change nothing, and
a handle that has just been disconnected is unknown, so `receive` and
`disconnect` after `disconnect` are likewise silent no-ops. -/
theorem benign_misuse (reg reg2 : Registry) (h : Nat) (data : List Char)
    (hu : reg.lookup h = none) :
    reg.receive h data = some reg ∧ reg.disconnect h = reg ∧
    (reg2.disconnect h).lookup h = none ∧
    (reg2.disconnect h).receive h data = some (reg2.disconnect h) ∧
    (reg2.disconnect h).disconnect h = reg2.disconnect h := by
  have main : ∀ (r : Registry), r.lookup h = none →
      r.receive h data = some r ∧ r.disconnect h = r := by
    intro r hr
    constructor
    · unfold Registry.receive
      rw [hr]
    · unfold Registry.disconnect
      rw [hr]
  have hd := lookup_disconnect reg2 h
  exact ⟨(main reg hu).1, (main reg hu).2, hd,
    (main _ hd).1, (main _ hd).2⟩

/-- Witness for C6 at a fresh registry and the handle 5. -/
theorem benign_misuse_witness :
    Registry.init.receive 5 ['a'] = some Registry.init ∧
      Registry.init.disconnect 5 = Registry.init :=
  ⟨(benign_misuse Registry.init Registry.init 5 ['a'] rfl).1,
   (benign_misuse Registry.init Registry.init 5 ['a'] rfl).2.1⟩

/-! Shutdown idempotence. -/

theorem onEof_stopped (st : InterpState) : st.onEof.stopped = st.stopped := by
  by_cases hb : st.buffer = [] <;>
    simp [InterpState.onEof, InterpState.notify, InterpState.consumeAvailable, hb]

theorem stopAndLogMetrics_idem (st : InterpState) :
    ((st.stopAndLogMetrics).1).stopAndLogMetrics = ((st.stopAndLogMetrics).1, none) := by
  have h2 : ((st.stopAndLogMetrics).1).stopped = true := by
    by_cases hs : st.stopped
    · simp [InterpState.stopAndLogMetrics, hs]
    · simp [InterpState.stopAndLogMetrics, hs, onEof_stopped]
  set p := st.stopAndLogMetrics with hp
  unfold InterpState.stopAndLogMetrics
  simp [h2]

theorem disconnect_idem (reg : Registry) (h : Nat) :
    (reg.disconnect h).disconnect h = reg.disconnect h := by
  have h2 := lookup_disconnect reg h
  set r := reg.disconnect h with hr
  show r.disconnect h = r
  unfold Registry.disconnect
  rw [h2]

theorem disconnect_reports (reg : Registry) (h : Nat) (i : InterpState)
    (hl : reg.lookup h = some i) (hi : i.stopped = false) :
    (reg.disconnect h).reports.length = reg.reports.length + 1 := by
  unfold Registry.disconnect
  rw [hl]
  have hsp : (i.stopAndLogMetrics).2
      = some (({ i with stopped := true }).onEof).mkReport := by
    simp [InterpState.stopAndLogMetrics, hi]
  split
  · rename_i heq
    exact absurd heq (by simp)
  · rename_i st2 heq
    injection heq with heq
    subst heq
    rw [hsp]
    simp

/-- C4: shutdown idempotence — a second `stop_and_log_metrics` on a
connection is a no-op emitting no report; a second `disconnect` of the same
handle leaves the registry unchanged; and disconnecting a live connection
emits exactly one metrics report, also when the disconnect is repeated. -/
theorem shutdown_idempotent (reg : Registry) (h : Nat) (st : InterpState) :
    (st.stopAndLogMetrics.1).stopAndLogMetrics = (st.stopAndLogMetrics.1, none) ∧
    (reg.disconnect h).disconnect h = reg.disconnect h ∧
    (∀ i, reg.lookup h = some i → i.stopped = false →
      (reg.disconnect h).reports.length = reg.reports.length + 1 ∧
      ((reg.disconnect h).disconnect h).reports.length = reg.reports.length + 1) :=
  ⟨stopAndLogMetrics_idem st, disconnect_idem reg h, fun i hl hi =>
    ⟨disconnect_reports reg h i hl hi, by
      rw [disconnect_idem]
      exact disconnect_reports reg h i hl hi⟩⟩

/-- Witness for C4: connect one session to a fresh registry, disconnect it
twice; exactly one report is on the log. -/
theorem shutdown_idempotent_witness :
    (((Registry.init.connect 3).2.disconnect 0).disconnect 0).reports.length
      = (Registry.init.connect 3).2.reports.length + 1 :=
  ((shutdown_idempotent (Registry.init.connect 3).2 0 (Interp.init 3 2)).2.2
    (Interp.init 3 2) rfl rfl).2

/-- C10: pool sizing — every connection created by `connect` holds a logging
pool with exactly one thread and a file pool with exactly
`nthreads_per_connection = 2` threads, and broadcasting a completed block
submits it to both pools. -/
theorem pool_sizing (reg : Registry) (bulk : Nat) (st : InterpState) (b : Block) :
    nthreadsPerConnection = 2 ∧
    (reg.connect bulk).2.connections
        = reg.connections ++ [((reg.connect bulk).1, Interp.init bulk nthreadsPerConnection)] ∧
    (Interp.init bulk nthreadsPerConnection).logWorker.threads.length = 1 ∧
    (Interp.init bulk nthreadsPerConnection).fileWorker.threads.length = 2 ∧
    (st.notify [b]).logWorker.bulks = st.logWorker.bulks ++ [b] ∧
    (st.notify [b]).fileWorker.bulks = st.fileWorker.bulks ++ [b] :=
  ⟨rfl, rfl, rfl, rfl, rfl, rfl⟩

/-! The bounded line buffer. -/

theorem consumeAvailable_buffer (st : InterpState) :
    st.consumeAvailable.buffer = [] := rfl

theorem consumeImpl_isSome : ∀ (data : List Char) (st : InterpState),
    (st.consumeImpl data).isSome = fitsFrom st.buffer.length data
  | [], _ => rfl
  | c :: cs, st => by
    show (match st.consumeChar c with
          | none => none
          | some s => s.consumeImpl cs).isSome = fitsFrom st.buffer.length (c :: cs)
    by_cases hc : c = '\n'
    · have h1 : st.consumeChar c = some st.consumeAvailable := by
        simp [InterpState.consumeChar, hc]
      rw [h1]
      show (st.consumeAvailable.consumeImpl cs).isSome = _
      rw [consumeImpl_isSome cs st.consumeAvailable, consumeAvailable_buffer]
      simp [fitsFrom, hc]
    · by_cases hlen : st.buffer.length < bufferCapacity
      · have h1 : st.consumeChar c = some { st with buffer := st.buffer ++ [c] } := by
          simp [InterpState.consumeChar, hc, hlen]
        rw [h1]
        show (InterpState.consumeImpl { st with buffer := st.buffer ++ [c] } cs).isSome = _
        rw [consumeImpl_isSome cs { st with buffer := st.buffer ++ [c] }]
        simp [fitsFrom, hc, hlen]
      · have h1 : st.consumeChar c = none := by
          simp [InterpState.consumeChar, hc, hlen]
        rw [h1]
        simp [fitsFrom, hc, hlen]

theorem segsOf_ne_nil (data : List Char) : segsOf data ≠ [] := by
  cases data with
  | nil => simp [segsOf]
  | cons c cs =>
    unfold segsOf
    by_cases hc : c = '\n'
    · simp [hc]
    · cases hs : segsOf cs <;> simp [hc, hs]

theorem fitsFrom_cons (k : Nat) (c : Char) (cs : List Char) :
    fitsFrom k (c :: cs)
      = if c = '\n' then fitsFrom 0 cs
        else decide (k < bufferCapacity) && fitsFrom (k + 1) cs := rfl

theorem fitsFrom_iff : ∀ (data : List Char) (k : Nat) (s0 : List Char)
    (rest : List (List Char)), k ≤ bufferCapacity → segsOf data = s0 :: rest →
    (fitsFrom k data = true ↔
      (k + s0.length ≤ bufferCapacity ∧ ∀ s ∈ rest, s.length ≤ bufferCapacity))
  | [], k, s0, rest, hk, hseg => by
    have h0 : segsOf ([] : List Char) = [[]] := rfl
    rw [h0] at hseg
    injection hseg with h1 h2
    subst h1
    subst h2
    constructor
    · intro _
      constructor
      · simpa using hk
      · intro s hs
        cases hs
    · intro _
      rfl
  | c :: cs, k, s0, rest, hk, hseg => by
    obtain ⟨t0, trest, hs⟩ := List.exists_cons_of_ne_nil (segsOf_ne_nil cs)
    by_cases hc : c = '\n'
    · have hseg2 : segsOf (c :: cs) = [] :: segsOf cs := by
        rw [show segsOf (c :: cs)
            = if c = '\n' then [] :: segsOf cs
              else match segsOf cs with
                | [] => [[c]]
                | s :: r => (c :: s) :: r from rfl, if_pos hc]
      rw [hseg2] at hseg
      injection hseg with h1 h2
      subst h1
      rw [fitsFrom_cons, if_pos hc, fitsFrom_iff cs 0 t0 trest (Nat.zero_le _) hs]
      rw [← h2, hs]
      simp only [List.length_nil, Nat.add_zero, Nat.zero_add, List.forall_mem_cons]
      constructor
      · rintro ⟨hh, ht⟩
        exact ⟨hk, hh, ht⟩
      · rintro ⟨_, hh, ht⟩
        exact ⟨hh, ht⟩
    · have hseg2 : segsOf (c :: cs) = (c :: t0) :: trest := by
        rw [show segsOf (c :: cs)
            = if c = '\n' then [] :: segsOf cs
              else match segsOf cs with
                | [] => [[c]]
                | s :: r => (c :: s) :: r from rfl, if_neg hc, hs]
      rw [hseg2] at hseg
      injection hseg with h1 h2
      subst h1
      subst h2
      rw [fitsFrom_cons, if_neg hc]
      by_cases hlt : k < bufferCapacity
      · rw [Bool.and_eq_true, decide_eq_true_iff,
            fitsFrom_iff cs (k + 1) t0 trest hlt hs]
        simp only [List.length_cons]
        constructor
        · rintro ⟨_, hh, ht⟩
          exact ⟨by omega, ht⟩
        · rintro ⟨hh, ht⟩
          exact ⟨hlt, by omega, ht⟩
      · rw [decide_eq_false hlt, Bool.false_and]
        simp only [List.length_cons]
        constructor
        · intro hcontr
          cases hcontr
        · rintro ⟨hh, _⟩
          omega

theorem fitsFrom_replicate_false : ∀ (m k : Nat), bufferCapacity ≤ k + m →
    fitsFrom k (List.replicate (m + 1) 'a') = false
  | 0, k, h => by
    show fitsFrom k ('a' :: List.replicate 0 'a') = false
    rw [fitsFrom_cons, if_neg (by decide), decide_eq_false (by omega : ¬(k < bufferCapacity)),
        Bool.false_and]
  | m + 1, k, h => by
    show fitsFrom k ('a' :: List.replicate (m + 1) 'a') = false
    rw [fitsFrom_cons, if_neg (by decide),
        fitsFrom_replicate_false m (k + 1) (by omega), Bool.and_false]

theorem consume_not_stopped (st : InterpState) (data : List Char)
    (h : st.stopped = false) : st.consume data = st.consumeImpl data := by
  simp [InterpState.consume, h]

/-- C7: bounded line buffer — the line buffer has the fixed capacity 1024
with no bounds check: a single line of 1025 characters makes `consume` fault
with an out-of-range access, while every input whose newline-separated
segments (including the trailing partial line) each fit within the capacity
is consumed without fault. -/
theorem bounded_line_buffer (bs n : Nat) (data : List Char)
    (hfits : ∀ s ∈ segsOf data, s.length ≤ bufferCapacity) :
    (Interp.init bs n).consume (List.replicate (bufferCapacity + 1) 'a') = none ∧
    ((Interp.init bs n).consume data).isSome = true := by
  have hbuf : (Interp.init bs n).buffer = [] := rfl
  constructor
  · rw [consume_not_stopped _ _ rfl]
    have hsome := consumeImpl_isSome (List.replicate (bufferCapacity + 1) 'a') (Interp.init bs n)
    rw [hbuf, List.length_nil,
        fitsFrom_replicate_false bufferCapacity 0 (by omega)] at hsome
    cases hx : (Interp.init bs n).consumeImpl (List.replicate (bufferCapacity + 1) 'a') with
    | none => rfl
    | some s =>
      rw [hx] at hsome
      exact Bool.noConfusion hsome
  · rw [consume_not_stopped _ _ rfl]
    obtain ⟨s0, rest, hs⟩ := List.exists_cons_of_ne_nil (segsOf_ne_nil data)
    rw [consumeImpl_isSome data (Interp.init bs n), hbuf, List.length_nil,
        fitsFrom_iff data 0 s0 rest (Nat.zero_le _) hs]
    rw [hs, List.forall_mem_cons] at hfits
    exact ⟨by have := hfits.1; omega, hfits.2⟩

/-- Witness for C7: the two-line input "hi\n" is consumed without fault. -/
theorem bounded_line_buffer_witness :
    ((Interp.init 3 2).consume ['h', 'i', '\n']).isSome = true :=
  (bounded_line_buffer 3 2 ['h', 'i', '\n'] (by decide)).2

/-! Joining a stopped pool: every thread exits and the queue is drained. -/

theorem wake_stopped (st : WorkerState) (i : Nat) :
    (st.wake i).stopped = st.stopped := by
  unfold WorkerState.wake
  split
  · rfl
  · split
    · rfl
    · split
      · rfl
      · rfl

theorem wake_threads_length (st : WorkerState) (i : Nat) :
    (st.wake i).threads.length = st.threads.length :=
  step_threads_length st (Event.wake i)

theorem wake_bulks_nil (st : WorkerState) (i : Nat) (h : st.bulks = []) :
    (st.wake i).bulks = [] := by
  unfold WorkerState.wake
  split
  · exact h
  · split
    · exact h
    · split
      · rfl
      · exact h

theorem wake_drains (st : WorkerState) (i : Nat) (t : ThreadState)
    (hsome : st.threads[i]? = some t) (hex : t.exited = false)
    (hstop : st.stopped = true) :
    (st.wake i).bulks = [] := by
  unfold WorkerState.wake
  rw [hsome]
  simp only [hex, hstop, Bool.false_eq_true, if_false, true_or, if_true]

theorem wake_exits_self (st : WorkerState) (i : Nat) (u : ThreadState)
    (hu : st.threads[i]? = some u) (hstop : st.stopped = true) :
    ∃ t', (st.wake i).threads[i]? = some t' ∧ t'.exited = true := by
  have hlt : i < st.threads.length := (List.getElem?_eq_some.mp hu).1
  unfold WorkerState.wake
  rw [hu]
  by_cases huex : u.exited = true
  · refine ⟨u, ?_, huex⟩
    simp only [huex, if_true]
    exact hu
  · rw [Bool.not_eq_true] at huex
    refine ⟨u.run st.bulks st.stopped, ?_, by simp [ThreadState.run, hstop]⟩
    simp only [huex, hstop, Bool.false_eq_true, if_false, true_or, if_true]
    exact List.getElem?_set_eq_of_lt _ hlt

theorem wake_keeps_exited (st : WorkerState) (i j : Nat) (t : ThreadState)
    (hsome : st.threads[j]? = some t) (hex : t.exited = true) :
    (st.wake i).threads[j]? = some t := by
  unfold WorkerState.wake
  cases hu : st.threads[i]? with
  | none => exact hsome
  | some u =>
    by_cases huex : u.exited = true
    · simp only [huex, if_true]
      exact hsome
    · rw [Bool.not_eq_true] at huex
      simp only [huex, Bool.false_eq_true, if_false]
      by_cases hcond : st.stopped = true ∨ st.bulks ≠ []
      · rw [if_pos hcond]
        show (st.threads.set i (u.run st.bulks st.stopped))[j]? = some t
        by_cases hij : i = j
        · subst hij
          rw [hu] at hsome
          injection hsome with hsome
          subst hsome
          rw [hex] at huex
          cases huex
        · rw [List.getElem?_set_ne hij]
          exact hsome
      · rw [if_neg hcond]
        exact hsome

theorem foldl_wake_stopped : ∀ (l : List Nat) (st : WorkerState),
    (l.foldl WorkerState.wake st).stopped = st.stopped
  | [], _ => rfl
  | i :: rest, st => by
    rw [List.foldl_cons, foldl_wake_stopped rest, wake_stopped]

theorem foldl_wake_threads_length : ∀ (l : List Nat) (st : WorkerState),
    (l.foldl WorkerState.wake st).threads.length = st.threads.length
  | [], _ => rfl
  | i :: rest, st => by
    rw [List.foldl_cons, foldl_wake_threads_length rest, wake_threads_length]

theorem foldl_wake_bulks_nil : ∀ (l : List Nat) (st : WorkerState), st.bulks = [] →
    (l.foldl WorkerState.wake st).bulks = []
  | [], _, h => h
  | i :: rest, st, h => by
    rw [List.foldl_cons]
    exact foldl_wake_bulks_nil rest _ (wake_bulks_nil st i h)

theorem foldl_wake_keeps_exited : ∀ (l : List Nat) (st : WorkerState) (j : Nat)
    (t : ThreadState), st.threads[j]? = some t → t.exited = true →
    (l.foldl WorkerState.wake st).threads[j]? = some t
  | [], _, _, _, hsome, _ => hsome
  | i :: rest, st, j, t, hsome, hex => by
    rw [List.foldl_cons]
    exact foldl_wake_keeps_exited rest _ j t (wake_keeps_exited st i j t hsome hex) hex

theorem foldl_wake_exits : ∀ (l : List Nat) (st : WorkerState), st.stopped = true →
    ∀ j, j ∈ l → ∀ t, (l.foldl WorkerState.wake st).threads[j]? = some t →
    t.exited = true
  | [], _, _, j, hj, _, _ => absurd hj (List.not_mem_nil j)
  | i :: rest, st, hstop, j, hj, t, hfin => by
    rw [List.foldl_cons] at hfin
    rcases List.mem_cons.mp hj with hji | hjr
    · subst hji
      cases hu : st.threads[j]? with
      | none =>
        have hge : st.threads.length ≤ j := by
          by_contra hlt
          rw [not_le] at hlt
          rw [List.getElem?_eq_getElem hlt] at hu
          exact Option.noConfusion hu
        have hnone : (rest.foldl WorkerState.wake (st.wake j)).threads[j]? = none := by
          apply List.getElem?_eq_none
          rw [foldl_wake_threads_length, wake_threads_length]
          exact hge
        rw [hnone] at hfin
        exact Option.noConfusion hfin
      | some u =>
        obtain ⟨t', ht', hex'⟩ := wake_exits_self st j u hu hstop
        have hkeep := foldl_wake_keeps_exited rest (st.wake j) j t' ht' hex'
        rw [hkeep] at hfin
        injection hfin with hfin
        rw [← hfin]
        exact hex'
    · exact foldl_wake_exits rest (st.wake i)
        (by rw [wake_stopped]; exact hstop) j hjr t hfin

theorem joinAll_exited (st : WorkerState) (hstop : st.stopped = true) :
    ∀ t ∈ st.joinAll.threads, t.exited = true := by
  intro t ht
  obtain ⟨j, hj⟩ := List.mem_iff_getElem?.mp ht
  have hjlt : j < st.joinAll.threads.length := (List.getElem?_eq_some.mp hj).1
  have hlen : st.joinAll.threads.length = st.threads.length := by
    unfold WorkerState.joinAll
    exact foldl_wake_threads_length _ st
  exact foldl_wake_exits (List.range st.threads.length) st hstop j
    (List.mem_range.mpr (by rw [← hlen]; exact hjlt)) t hj

theorem joinAll_bulks (st : WorkerState) (hstop : st.stopped = true)
    (t0 : ThreadState) (h0 : st.threads[0]? = some t0) (hl : t0.exited = false) :
    st.joinAll.bulks = [] := by
  unfold WorkerState.joinAll
  have hlen : 0 < st.threads.length := (List.getElem?_eq_some.mp h0).1
  obtain ⟨m, hm⟩ : ∃ m, st.threads.length = m + 1 := ⟨st.threads.length - 1, by omega⟩
  rw [hm, List.range_succ_eq_map, List.foldl_cons]
  exact foldl_wake_bulks_nil _ _ (wake_drains st 0 t0 h0 hl hstop)

/-! The shutdown algorithm. -/

theorem foldl_send_threads : ∀ (blocks : List Block) (w : WorkerState),
    (blocks.foldl WorkerState.send w).threads = w.threads
  | [], _ => rfl
  | b :: bs, w => by
    rw [List.foldl_cons, foldl_send_threads bs]
    rfl

theorem consumeChar_threads {st st' : InterpState} {c : Char}
    (h : st.consumeChar c = some st') :
    st'.logWorker.threads = st.logWorker.threads ∧
    st'.fileWorker.threads = st.fileWorker.threads := by
  unfold InterpState.consumeChar at h
  split at h
  · injection h with h
    subst h
    exact ⟨foldl_send_threads _ _, foldl_send_threads _ _⟩
  · split at h
    · injection h with h
      subst h
      exact ⟨rfl, rfl⟩
    · cases h

theorem consumeImpl_threads : ∀ (data : List Char) (st st' : InterpState),
    st.consumeImpl data = some st' →
    st'.logWorker.threads = st.logWorker.threads ∧
    st'.fileWorker.threads = st.fileWorker.threads
  | [], _, _, h => by
    injection h with h
    subst h
    exact ⟨rfl, rfl⟩
  | c :: cs, st, st', h => by
    unfold InterpState.consumeImpl at h
    cases hc : st.consumeChar c with
    | none => rw [hc] at h; cases h
    | some s1 =>
      rw [hc] at h
      obtain ⟨h1, h2⟩ := consumeImpl_threads cs s1 st' h
      obtain ⟨g1, g2⟩ := consumeChar_threads hc
      exact ⟨h1.trans g1, h2.trans g2⟩

theorem readerOnEof_linesFed (r : ReaderState) :
    (r.onEof).1.linesFed = r.linesFed := by
  unfold ReaderState.onEof
  split <;> rfl

theorem consumeAvailable_linesFed (st : InterpState) :
    st.consumeAvailable.reader.linesFed = st.reader.linesFed ++ [st.buffer] := by
  show ((st.reader.consumeLine st.buffer).1).linesFed = _
  unfold ReaderState.consumeLine
  by_cases hlen : (st.reader.current ++ [st.buffer]).length = st.reader.blockSize
  · rw [if_pos hlen]
  · rw [if_neg hlen]

theorem onEof_linesFed (st : InterpState) :
    st.onEof.reader.linesFed
      = st.reader.linesFed ++ (if st.buffer = [] then [] else [st.buffer]) := by
  show (((if st.buffer = [] then st else st.consumeAvailable).reader.onEof).1).linesFed = _
  rw [readerOnEof_linesFed]
  by_cases hb : st.buffer = []
  · rw [if_pos hb, if_pos hb, List.append_nil]
  · rw [if_neg hb, if_neg hb, consumeAvailable_linesFed]

theorem onEof_workers (st : InterpState) :
    ∃ wl wf : WorkerState,
      st.onEof.logWorker = wl.joinAll ∧ st.onEof.fileWorker = wf.joinAll ∧
      wl.stopped = true ∧ wf.stopped = true ∧
      wl.threads = st.logWorker.threads ∧ wf.threads = st.fileWorker.threads := by
  have hstA_log : (if st.buffer = [] then st else st.consumeAvailable).logWorker.threads
      = st.logWorker.threads := by
    by_cases hb : st.buffer = []
    · rw [if_pos hb]
    · rw [if_neg hb]
      exact foldl_send_threads _ _
  have hstA_file : (if st.buffer = [] then st else st.consumeAvailable).fileWorker.threads
      = st.fileWorker.threads := by
    by_cases hb : st.buffer = []
    · rw [if_pos hb]
    · rw [if_neg hb]
      exact foldl_send_threads _ _
  refine ⟨((((if st.buffer = [] then st else st.consumeAvailable).reader.onEof).2).foldl
            WorkerState.send
            (if st.buffer = [] then st else st.consumeAvailable).logWorker).stop,
          ((((if st.buffer = [] then st else st.consumeAvailable).reader.onEof).2).foldl
            WorkerState.send
            (if st.buffer = [] then st else st.consumeAvailable).fileWorker).stop,
          rfl, rfl, rfl, rfl, ?_, ?_⟩
  · show ((((if st.buffer = [] then st else st.consumeAvailable).reader.onEof).2).foldl
        WorkerState.send
        (if st.buffer = [] then st else st.consumeAvailable).logWorker).threads = _
    rw [foldl_send_threads]
    exact hstA_log
  · show ((((if st.buffer = [] then st else st.consumeAvailable).reader.onEof).2).foldl
        WorkerState.send
        (if st.buffer = [] then st else st.consumeAvailable).fileWorker).threads = _
    rw [foldl_send_threads]
    exact hstA_file

/-- C8: shutdown algorithm — when `stop_and_log_metrics` performs the
transition on a connection reached by consuming any input on a fresh
connection, the non-empty partial line left in the buffer is fed to the
parsing boundary as a final line (an empty buffer feeds nothing), both
pools' queues are drained and every worker thread of both pools has exited
in the state from which the metrics are read, and the emitted report is
composed exactly from that quiescent state. -/
theorem shutdown_steps (bs n : Nat) (data : List Char) (st : InterpState)
    (hn : 0 < n) (hc : (Interp.init bs n).consume data = some st) :
    (st.stopAndLogMetrics.1).reader.linesFed
        = st.reader.linesFed ++ (if st.buffer = [] then [] else [st.buffer]) ∧
    (st.stopAndLogMetrics.1).logWorker.bulks = [] ∧
    (st.stopAndLogMetrics.1).fileWorker.bulks = [] ∧
    (∀ t ∈ (st.stopAndLogMetrics.1).logWorker.threads, t.exited = true) ∧
    (∀ t ∈ (st.stopAndLogMetrics.1).fileWorker.threads, t.exited = true) ∧
    st.stopAndLogMetrics.2 = some ((st.stopAndLogMetrics.1).mkReport) := by
  rw [consume_not_stopped _ _ rfl] at hc
  have hstopped : st.stopped = false := consumeImpl_stopped data _ st hc
  obtain ⟨hlog, hfile⟩ := consumeImpl_threads data _ st hc
  have hlogr : st.logWorker.threads
      = List.replicate 1 ⟨false, ⟨0, 0⟩, []⟩ := hlog
  have hfiler : st.fileWorker.threads
      = List.replicate n ⟨false, ⟨0, 0⟩, []⟩ := hfile
  have hfst : st.stopAndLogMetrics.1 = ({ st with stopped := true }).onEof := by
    simp [InterpState.stopAndLogMetrics, hstopped]
  have hsnd : st.stopAndLogMetrics.2
      = some ((({ st with stopped := true }).onEof).mkReport) := by
    simp [InterpState.stopAndLogMetrics, hstopped]
  obtain ⟨wl, wf, hwl, hwf, hwls, hwfs, hwlt, hwft⟩ :=
    onEof_workers ({ st with stopped := true })
  have hl0 : wl.threads[0]? = some ⟨false, ⟨0, 0⟩, []⟩ := by
    rw [hwlt]
    show st.logWorker.threads[0]? = _
    rw [hlogr]
    rfl
  have hf0 : wf.threads[0]? = some ⟨false, ⟨0, 0⟩, []⟩ := by
    rw [hwft]
    show st.fileWorker.threads[0]? = _
    rw [hfiler]
    obtain ⟨m, hm⟩ : ∃ m, n = m + 1 := ⟨n - 1, by omega⟩
    rw [hm, List.replicate_succ, List.getElem?_cons_zero]
  refine ⟨?_, ?_, ?_, ?_, ?_, ?_⟩
  · rw [hfst, onEof_linesFed]
  · rw [hfst, hwl]
    exact joinAll_bulks wl hwls _ hl0 rfl
  · rw [hfst, hwf]
    exact joinAll_bulks wf hwfs _ hf0 rfl
  · rw [hfst, hwl]
    exact joinAll_exited wl hwls
  · rw [hfst, hwf]
    exact joinAll_exited wf hwfs
  · rw [hsnd, hfst]

/-- Witness for C8: a fresh 1-file-thread connection that consumed nothing. -/
theorem shutdown_steps_witness :
    ((Interp.init 2 1).stopAndLogMetrics).2
      = some ((((Interp.init 2 1).stopAndLogMetrics).1).mkReport) :=
  (shutdown_steps 2 1 [] (Interp.init 2 1) (by decide) rfl).2.2.2.2.2

end Async
